import Mathlib

/-!
Verification of the streaming frequency-aggregation engine of
`topvalues_in_csv.py` (CSV Analyzer, Top N Values).

The engine is shallowly embedded: cell values are `Option String`
(`none` models a missing value / NaN), a `collections.Counter` is an
insertion-ordered association list from value to count (a Python dict
preserves insertion order), and the chunk loop of `process_csv_thread`
is explicit state passing over a list of chunks with a polled
cancellation flag.
-/

namespace CSVTopValues

/-! ### Constants of the source -/

def DEFAULT_TOP_N : Nat := 10

def CHUNK_SIZE_DEFAULT : Nat := 9000

def MIN_CHUNK_SIZE : Nat := 500

def FILE_SAMPLE_SIZE : Nat := 50000

/-! ### Python `int(str)` parsing and the two validators -/

/-- Digit groups as accepted by Python `int`: a nonempty run of decimal
digits in which single underscores may separate digits (no leading,
trailing or doubled underscore). -/
def digitGroups : List Char → Bool
  | [] => false
  | [c] => c.isDigit
  | c :: d :: rest =>
    c.isDigit && (if d = '_' then digitGroups rest else digitGroups (d :: rest))

/-- Decimal value of a digit list (underscores already removed). -/
def digitsVal (l : List Char) : Nat :=
  l.foldl (fun a c => a * 10 + (c.toNat - 48)) 0

/-- Strip leading and trailing whitespace from a character list. -/
def stripWS (l : List Char) : List Char :=
  ((l.dropWhile Char.isWhitespace).reverse.dropWhile Char.isWhitespace).reverse

/-- Model of Python `int(s)` for decimal strings: surrounding whitespace
is stripped, an optional single sign is allowed, then digit groups with
underscore separators; any other shape raises `ValueError`, modelled as
`none`. -/
def pyParseInt (s : String) : Option Int :=
  match stripWS s.toList with
  | '+' :: rest =>
    if digitGroups rest then some (digitsVal (rest.filter (fun c => c ≠ '_')) : Int) else none
  | '-' :: rest =>
    if digitGroups rest then some (-(digitsVal (rest.filter (fun c => c ≠ '_')) : Int)) else none
  | l => if digitGroups l then some (digitsVal (l.filter (fun c => c ≠ '_')) : Int) else none

/-- `validate_top_n`: the parsed value when it is an integer `> 0`,
otherwise the default 10.  The boolean records whether the
invalid-input warning dialog was shown. -/
def validate_top_n (s : String) : Int × Bool :=
  match pyParseInt s with
  | some n => if 0 < n then (n, false) else ((DEFAULT_TOP_N : Int), true)
  | none => ((DEFAULT_TOP_N : Int), true)

/-- `validate_chunk_size`: the parsed value when it is an integer
`≥ MIN_CHUNK_SIZE`, otherwise the default 9000, with a warning. -/
def validate_chunk_size (s : String) : Int × Bool :=
  match pyParseInt s with
  | some n => if (MIN_CHUNK_SIZE : Int) ≤ n then (n, false) else ((CHUNK_SIZE_DEFAULT : Int), true)
  | none => ((CHUNK_SIZE_DEFAULT : Int), true)

/-! ### Row-size estimator (lines 251-254 of the source)

The byte sample is a `List Nat`; a newline is byte 10.  Python float
division is modelled with exact rationals. -/

def lines_in_sample (raw : List Nat) : Nat := raw.count 10

/-- `avg_row_size = len(raw_data) / lines_in_sample if lines_in_sample > 0 else 150`. -/
def avg_row_size (raw : List Nat) : ℚ :=
  if 0 < lines_in_sample raw then (raw.length : ℚ) / (lines_in_sample raw : ℚ) else 150

/-- `estimated_chunk_byte_size = chunk_size * avg_row_size`. -/
def estimated_chunk_byte_size (chunk_size : Nat) (raw : List Nat) : ℚ :=
  (chunk_size : ℚ) * avg_row_size raw

/-- `total_chunks = math.ceil(total_size / estimated_chunk_byte_size) if
estimated_chunk_byte_size > 0 else 1`. -/
def total_chunks (total_size chunk_size : Nat) (raw : List Nat) : ℤ :=
  if 0 < estimated_chunk_byte_size chunk_size raw then
    ⌈(total_size : ℚ) / estimated_chunk_byte_size chunk_size raw⌉
  else 1

/-! ### Counters -/

/-- `collections.Counter` as an insertion-ordered association list. -/
abbrev Counter := List (String × Nat)

/-- Dict lookup: the count stored for value `v`, if the key is present. -/
def cLookup (c : Counter) (v : String) : Option Nat :=
  (c.find? (fun p => p.1 == v)).map (fun p => p.2)

/-- Add `n` to the count of key `k`, appending the key if absent
(Python dict update semantics: an existing key keeps its position, a
new key goes to the end). -/
def counterAdd (c : Counter) (k : String) (n : Nat) : Counter :=
  if c.any (fun p => p.1 == k) then
    c.map (fun p => if p.1 == k then (p.1, p.2 + n) else p)
  else c ++ [(k, n)]

/-- `Counter.update(d)`: merge the entries of `d` with count addition. -/
def counterUpdate (c : Counter) (d : List (String × Nat)) : Counter :=
  d.foldl (fun acc p => counterAdd acc p.1 p.2) c

/-- Ordering used by `most_common`: `p` may precede `q` when the count
of `p` is at least that of `q` (descending by count). -/
def cntGe (p q : String × Nat) : Prop := q.2 ≤ p.2

instance : DecidableRel cntGe := fun p q => Nat.decLe q.2 p.2

instance : IsTotal (String × Nat) cntGe := ⟨fun p q => Nat.le_total q.2 p.2⟩

instance : IsTrans (String × Nat) cntGe := ⟨fun _ _ _ h1 h2 => Nat.le_trans h2 h1⟩

/-- Stable sort by descending count.  CPython `heapq.nlargest` (used by
`Counter.most_common`) is documented as `sorted(items, key, reverse=True)[:n]`,
a stable descending sort breaking ties by the order of the items, which
for a Counter is dict insertion order. -/
def sortDesc (c : List (String × Nat)) : List (String × Nat) :=
  List.insertionSort cntGe c

/-- `Counter.most_common(n)`. -/
def most_common (n : Nat) (c : Counter) : List (String × Nat) :=
  (sortDesc c).take n

/-! ### Series and `value_counts` -/

/-- Distinct elements of a list in order of first occurrence (the order
in which a hash table keyed by the values is populated). -/
def firstDedupAux (seen : List String) : List String → List String
  | [] => []
  | v :: rest =>
    if seen.contains v then firstDedupAux seen rest
    else v :: firstDedupAux (v :: seen) rest

def firstDedup (l : List String) : List String := firstDedupAux [] l

/-- `chunk[col].value_counts().to_dict()`: occurrence counts over the
non-missing cells of a series, keys in descending count order, ties by
first occurrence; missing cells (`none`, pandas NaN) are dropped, as
`value_counts` defaults to `dropna=True`. -/
def value_counts (s : List (Option String)) : List (String × Nat) :=
  sortDesc ((firstDedup (s.filterMap id)).map (fun v => (v, (s.filterMap id).count v)))

/-! ### Chunks and the processing loop of `process_csv_thread` -/

/-- One data row: cells aligned with the column list; `none` models a
missing value. -/
abbrev Row := List (Option String)

/-- One pandas chunk: named columns and the data rows of the chunk. -/
structure Chunk where
  cols : List String
  rows : List Row

/-- Index of a column name in the column list. -/
def colIdx : List String → String → Nat
  | [], _ => 0
  | c :: rest, col => if c = col then 0 else colIdx rest col + 1

/-- The series `chunk[col]`. -/
def colSeries (ch : Chunk) (col : String) : List (Option String) :=
  ch.rows.map (fun r => r.getD (colIdx ch.cols col) none)

/-- The loop state of `process_csv_thread`:
`value_counters, header, chunk_num = {}, [], 0`. -/
structure LoopState where
  value_counters : List (String × Counter)
  header : List String
  chunk_num : Nat

def initState : LoopState := { value_counters := [], header := [], chunk_num := 0 }

/-- Lookup of a column's counter in the `value_counters` dict (the code
only indexes columns it has initialised, so a default is never hit). -/
def vcLookup (vc : List (String × Counter)) (col : String) : Counter :=
  ((vc.find? (fun p => p.1 == col)).map (fun p => p.2)).getD []

/-- In-place `value_counters[col].update(d)`. -/
def vcUpdate (vc : List (String × Counter)) (col : String) (d : List (String × Nat)) :
    List (String × Counter) :=
  vc.map (fun p => if p.1 == col then (p.1, counterUpdate p.2 d) else p)

/-- The body of the `for chunk in reader` loop (lines 267-272): bump
`chunk_num`, set `header` and fresh counters from the first chunk, then
for every known column present in the chunk merge the chunk-local
`value_counts` into that column's cumulative counter. -/
def stepChunk (st : LoopState) (ch : Chunk) : LoopState :=
  let st1 :=
    if st.header.isEmpty then
      { st with header := ch.cols,
                value_counters := ch.cols.map (fun c => (c, ([] : Counter))) }
    else st
  { value_counters :=
      st1.header.foldl
        (fun vc col =>
          if ch.cols.contains col then vcUpdate vc col (value_counts (colSeries ch col))
          else vc)
        st1.value_counters,
    header := st1.header,
    chunk_num := st1.chunk_num + 1 }

/-- The chunk loop with cooperative cancellation.  Each iteration first
consumes a chunk from the reader, then polls the stop flag (`stop i` is
the flag's value at the poll following consumption of chunk `i`) and
breaks without merging the chunk when the flag is set.  Returns the
final state and the number of chunks consumed from the reader. -/
def runLoop (stop : Nat → Bool) : List Chunk → Nat → LoopState → LoopState × Nat
  | [], i, st => (st, i)
  | ch :: rest, i, st =>
    if stop i then (st, i + 1)
    else runLoop stop rest (i + 1) (stepChunk st ch)

/-! ### Report generation (`generate_report`, lines 296-305) -/

def eqLine : String := String.mk (List.replicate 40 '=')

def reportHeaderBlock (fileName dateStr : String) (top_n : Nat) : String :=
  "--- CSV Analysis Report ---\nFile: " ++ fileName ++ "\n" ++
    "Analysis Date: " ++ dateStr ++ "\nTop " ++ toString top_n ++ " values:\n" ++
    eqLine ++ "\n\n"

def valueLine (p : String × Nat) : String :=
  "  - Value: \x27" ++ p.1 ++ "\x27 | Count: " ++ toString p.2 ++ "\n"

/-- One per-column section: title, then either the placeholder for an
empty counter or one line per `most_common(top_n)` entry. -/
def columnSection (i : Nat) (col : String) (c : Counter) (top_n : Nat) : String :=
  "--- Column " ++ toString (i + 1) ++ ": \x27" ++ col ++ "\x27 ---\n" ++
    (if c.isEmpty then "No values found.\n\n"
     else String.join ((most_common top_n c).map valueLine) ++ "\n")

/-- `generate_report(value_counters, top_n)`; the source file name and
the `datetime.now()` timestamp it interpolates are explicit inputs. -/
def generate_report (vc : List (String × Counter)) (top_n : Nat)
    (fileName dateStr : String) : String :=
  reportHeaderBlock fileName dateStr top_n ++
    String.join (vc.enum.map (fun p => columnSection p.1 p.2.1 p.2.2 top_n))

/-! ### The whole run -/

def stop_report : String := "Processing was stopped before completion."

structure Outcome where
  report : String
  success : Bool
  consumed : Nat
  final : LoopState

/-- The core of `process_csv_thread` after the estimator: run the chunk
loop, then either the stopped report or the generated report, and
`success = not stop_event.is_set()`. -/
def process_csv_thread (fileName dateStr : String) (chunks : List Chunk)
    (stop : Nat → Bool) (top_n : Nat) : Outcome :=
  let r := runLoop stop chunks 0 initState
  { report :=
      if stop r.2 then stop_report
      else generate_report r.1.value_counters top_n fileName dateStr,
    success := !(stop r.2),
    consumed := r.2,
    final := r.1 }

/-! ### Files split into chunks -/

/-- Consecutive groups of `m + 1` rows: the pandas reader with
`chunksize = m + 1` (the chunk size is always positive, at least
`MIN_CHUNK_SIZE` in a real run). -/
def chunksOfPos (m : Nat) : List Row → List (List Row)
  | [] => []
  | r :: rest => ((r :: rest).take (m + 1)) :: chunksOfPos m ((r :: rest).drop (m + 1))
termination_by l => l.length
decreasing_by
  simp only [List.length_drop, List.length_cons]
  omega

/-- The chunk sequence pandas yields for a file with header `H` and
data rows `rows` at chunk size `m + 1`: every chunk carries the header's
columns. -/
def fileChunks (H : List String) (m : Nat) (rows : List Row) : List Chunk :=
  (chunksOfPos m rows).map (fun rs => { cols := H, rows := rs })

/-- The cell of row `r` in column `col` (alignment by header index). -/
def cellOf (H : List String) (col : String) (r : Row) : Option String :=
  r.getD (colIdx H col) none

/-- Occurrences of value `v` in column `col` over the given data rows:
the analytic distribution of the column. -/
def directCount (H : List String) (col : String) (rows : List Row) (v : String) : Nat :=
  ((rows.map (cellOf H col)).filterMap id).count v

/-- Number of non-missing cells of column `col` over the given rows. -/
def nonMissing (H : List String) (col : String) (rows : List Row) : Nat :=
  ((rows.map (cellOf H col)).filterMap id).length

/-- `some n` for a positive count, `none` for zero: how a count-map
stores "the value occurred n times" (absent keys mean zero). -/
def posOpt (n : Nat) : Option Nat := if n = 0 then none else some n

/-- Pointwise addition on optional counts (`none` is absence). -/
def optionAdd : Option Nat → Option Nat → Option Nat
  | none, none => none
  | some a, none => some a
  | none, some b => some b
  | some a, some b => some (a + b)

/-- Sum of all counts recorded in a counter. -/
def sumCounts (c : Counter) : Nat := (c.map (fun p => p.2)).sum

/-- State after merging a given chunk list, no cancellation. -/
def stateAfter (chs : List Chunk) : LoopState := chs.foldl stepChunk initState

/-- Final loop state of an uncancelled run over a whole file. -/
def finalState (H : List String) (m : Nat) (rows : List Row) : LoopState :=
  (runLoop (fun _ => false) (fileChunks H m rows) 0 initState).1

/-- The keys of a counter are distinct (true of every Python dict). -/
def KeysNodup (c : List (String × Nat)) : Prop := (c.map (fun p => p.1)).Nodup

/-- Total occurrences of value `v` in column `col` over a chunk list. -/
def chunksCount (chs : List Chunk) (col v : String) : Nat :=
  (chs.map (fun ch => ((colSeries ch col).filterMap id).count v)).sum

/-- Total non-missing cells of column `col` over a chunk list. -/
def chunksNonMissing (chs : List Chunk) (col : String) : Nat :=
  (chs.map (fun ch => ((colSeries ch col).filterMap id).length)).sum

/-- The state right after `header` and `value_counters` are initialised
from the first chunk's columns. -/
def preInit (H : List String) : LoopState :=
  { value_counters := H.map (fun c => (c, ([] : Counter))), header := H, chunk_num := 0 }

/-- The loop state has the fixed header `H` and one counter per column
of `H`, in order. -/
def GoodState (H : List String) (st : LoopState) : Prop :=
  st.header = H ∧ st.value_counters.map (fun p => p.1) = H

/-- An empty header means no counters yet (true of every reachable
state: counters are created exactly when the header is learned). -/
def InvEmpty (st : LoopState) : Prop :=
  st.header = [] → st.value_counters = []

/-- All counts stored in all counters are strictly positive. -/
def AllPos (st : LoopState) : Prop :=
  ∀ p ∈ st.value_counters, ∀ q ∈ p.2, 0 < q.2

/-! ### Lemmas: counter lookups -/

theorem optionAdd_none_right (x : Option Nat) : optionAdd x none = x := by
  cases x <;> rfl

theorem optionAdd_assoc (x y z : Option Nat) :
    optionAdd (optionAdd x y) z = optionAdd x (optionAdd y z) := by
  cases x <;> cases y <;> cases z <;> simp [optionAdd, Nat.add_assoc]

theorem posOpt_add (a b : Nat) : posOpt (a + b) = optionAdd (posOpt a) (posOpt b) := by
  unfold posOpt
  by_cases ha : a = 0 <;> by_cases hb : b = 0 <;>
    simp [ha, hb, optionAdd]

theorem cLookup_eq_none (c : Counter) (v : String) (h : ∀ p ∈ c, ¬p.1 = v) :
    cLookup c v = none := by
  unfold cLookup
  rw [List.find?_eq_none.mpr]
  · rfl
  · intro p hp
    simpa using h p hp

theorem cLookup_cons (q : String × Nat) (rest : Counter) (v : String) :
    cLookup (q :: rest) v = if q.1 = v then some q.2 else cLookup rest v := by
  by_cases h : q.1 = v
  · rw [if_pos h]
    unfold cLookup
    rw [@List.find?_cons_of_pos _ (fun r => r.1 == v) q rest (by simpa using h)]
    rfl
  · rw [if_neg h]
    unfold cLookup
    rw [@List.find?_cons_of_neg _ (fun r => r.1 == v) q rest (by simpa using h)]

theorem cLookup_of_mem (c : Counter) (v : String) (n : Nat)
    (hnd : KeysNodup c) (hm : (v, n) ∈ c) : cLookup c v = some n := by
  induction c with
  | nil => simp at hm
  | cons q rest ih =>
    rcases List.mem_cons.mp hm with hm | hm
    · rw [← hm, cLookup_cons]
      simp
    · have hk : ¬q.1 = v := by
        intro hpv
        have hv : v ∈ rest.map (fun r => r.1) := List.mem_map_of_mem _ hm
        have hh : v ∉ rest.map (fun r => r.1) := by
          simpa [hpv] using (List.nodup_cons.mp hnd).1
        exact hh hv
      rw [cLookup_cons, if_neg hk]
      exact ih (List.nodup_cons.mp hnd).2 hm

theorem find?_bumpMap (c : Counter) (k : String) (n : Nat) (v : String) :
    cLookup (c.map (fun p => if p.1 == k then (p.1, p.2 + n) else p)) v =
      if v = k then (cLookup c v).map (· + n) else cLookup c v := by
  induction c with
  | nil => by_cases hv : v = k <;> simp [hv, cLookup]
  | cons q rest ih =>
    simp only [List.map_cons]
    by_cases hqk : (q.1 == k) = true
    · have hqk' : q.1 = k := by simpa using hqk
      by_cases hqv : q.1 = v
      · have hvk : v = k := hqv ▸ hqk'
        simp [hqk, cLookup_cons, hqv, hvk]
      · simpa [hqk, cLookup_cons, hqv] using ih
    · by_cases hqv : q.1 = v
      · have hvk : ¬v = k := fun h => hqk (by simp [hqv, h])
        simp [hqk, cLookup_cons, hqv, hvk]
      · simpa [hqk, cLookup_cons, hqv] using ih

theorem cLookup_append_single (c : Counter) (k : String) (n : Nat) (v : String)
    (hk : ∀ p ∈ c, ¬p.1 = k) :
    cLookup (c ++ [(k, n)]) v = if v = k then some n else cLookup c v := by
  induction c with
  | nil =>
    by_cases hv : v = k
    · subst hv
      simp [cLookup]
    · rw [if_neg hv]
      have hkv : ¬(k == v) = true := by
        simpa using fun h => hv h.symm
      simp [cLookup, hkv]
  | cons q rest ih =>
    rw [List.cons_append, cLookup_cons, cLookup_cons]
    by_cases hqv : q.1 = v
    · have hvk : ¬v = k := fun h => hk q (List.mem_cons_self q rest) (hqv.trans h)
      rw [if_pos hqv, if_pos hqv, if_neg hvk]
    · rw [if_neg hqv, if_neg hqv, ih (fun r hr => hk r (List.mem_cons_of_mem q hr))]

theorem cLookup_isSome_of_any (c : Counter) (k : String)
    (h : c.any (fun p => p.1 == k) = true) : ∃ a, cLookup c k = some a := by
  rcases List.any_eq_true.mp h with ⟨p, hp, hpk⟩
  have hs : (c.find? (fun q => q.1 == k)).isSome = true :=
    List.find?_isSome.mpr ⟨p, hp, hpk⟩
  rcases Option.isSome_iff_exists.mp hs with ⟨q, hq⟩
  exact ⟨q.2, by simp [cLookup, hq]⟩

theorem cLookup_counterAdd (c : Counter) (k : String) (n : Nat) (v : String) :
    cLookup (counterAdd c k n) v =
      if v = k then some ((cLookup c v).getD 0 + n) else cLookup c v := by
  unfold counterAdd
  by_cases hany : c.any (fun p => p.1 == k) = true
  · rw [if_pos hany, find?_bumpMap]
    by_cases hv : v = k
    · subst hv
      rcases cLookup_isSome_of_any c v hany with ⟨a, ha⟩
      simp [ha]
    · simp [hv]
  · rw [if_neg hany]
    have hnk : ∀ p ∈ c, ¬p.1 = k := by
      intro p hp hpk
      exact hany (List.any_eq_true.mpr ⟨p, hp, by simp [hpk]⟩)
    rw [cLookup_append_single c k n v hnk]
    by_cases hv : v = k
    · subst hv
      rw [cLookup_eq_none c v hnk]
      simp
    · simp [hv]

theorem keys_map_bump (c : Counter) (k : String) (n : Nat) :
    (c.map (fun p => if p.1 == k then (p.1, p.2 + n) else p)).map (fun p => p.1) =
      c.map (fun p => p.1) := by
  rw [List.map_map]
  apply List.map_congr_left
  intro p _
  by_cases h : p.1 = k <;> simp [h]

theorem keysNodup_counterAdd (c : Counter) (k : String) (n : Nat)
    (h : KeysNodup c) : KeysNodup (counterAdd c k n) := by
  unfold counterAdd
  by_cases hany : c.any (fun p => p.1 == k) = true
  · rw [if_pos hany]
    unfold KeysNodup
    rw [keys_map_bump]
    exact h
  · rw [if_neg hany]
    unfold KeysNodup
    rw [List.map_append]
    refine (List.perm_append_singleton _ _).nodup_iff.mpr ?_
    rw [List.nodup_cons]
    refine ⟨?_, h⟩
    intro hm
    rcases List.mem_map.mp hm with ⟨p, hp, hpk⟩
    exact hany (List.any_eq_true.mpr ⟨p, hp, by simp [hpk]⟩)

theorem keysNodup_counterUpdate (c : Counter) (d : List (String × Nat))
    (h : KeysNodup c) : KeysNodup (counterUpdate c d) := by
  induction d generalizing c with
  | nil => exact h
  | cons p rest ih => exact ih _ (keysNodup_counterAdd _ _ _ h)

theorem cLookup_counterUpdate (c : Counter) (d : List (String × Nat)) (v : String)
    (hd : KeysNodup d) :
    cLookup (counterUpdate c d) v = optionAdd (cLookup c v) (cLookup d v) := by
  induction d generalizing c with
  | nil => rw [cLookup_eq_none [] v (by simp), optionAdd_none_right]; rfl
  | cons p rest ih =>
    have hnd : KeysNodup rest := (List.nodup_cons.mp hd).2
    have hpk : p.1 ∉ rest.map (fun q => q.1) := (List.nodup_cons.mp hd).1
    show cLookup (counterUpdate (counterAdd c p.1 p.2) rest) v = _
    rw [ih _ hnd, cLookup_counterAdd]
    by_cases hv : v = p.1
    · have hrest : cLookup rest v = none := by
        apply cLookup_eq_none
        intro q hq hqv
        have hmem : p.1 ∈ rest.map (fun r => r.1) := by
          rw [← hv, ← hqv]
          simpa using List.mem_map_of_mem (fun r => r.1) hq
        exact hpk hmem
      have hcons : cLookup (p :: rest) v = some p.2 := by
        rw [cLookup_cons, if_pos hv.symm]
      rw [if_pos hv, hrest, optionAdd_none_right, hcons]
      cases hc : cLookup c v <;> simp [optionAdd]
    · have hcons : cLookup (p :: rest) v = cLookup rest v := by
        rw [cLookup_cons, if_neg (fun h => hv h.symm)]
      rw [if_neg hv, hcons]

theorem map_bump_eq_self (c : Counter) (k : String) (n : Nat)
    (h : ∀ p ∈ c, ¬p.1 = k) :
    c.map (fun p => if p.1 == k then (p.1, p.2 + n) else p) = c := by
  have h2 : ∀ p ∈ c, (if p.1 == k then (p.1, p.2 + n) else p) = id p := by
    intro p hp
    simp [h p hp]
  rw [List.map_congr_left h2, List.map_id]

theorem sumCounts_counterAdd (c : Counter) (k : String) (n : Nat)
    (h : KeysNodup c) : sumCounts (counterAdd c k n) = sumCounts c + n := by
  induction c with
  | nil => simp [counterAdd, sumCounts]
  | cons p rest ih =>
    unfold counterAdd
    by_cases hp : (p.1 == k) = true
    · have hany : ((p :: rest).any fun q => q.1 == k) = true := by simp [hp]
      rw [if_pos hany, List.map_cons, if_pos hp]
      have hpk : p.1 = k := by simpa using hp
      have hrest : ∀ q ∈ rest, ¬q.1 = k := by
        intro q hq hqk
        have hmem : p.1 ∈ rest.map (fun r => r.1) := by
          rw [hpk, ← hqk]
          simpa using List.mem_map_of_mem (fun r => r.1) hq
        exact (by simpa using (List.nodup_cons.mp h).1 : p.1 ∉ rest.map (fun r => r.1)) hmem
      rw [map_bump_eq_self rest k n hrest]
      simp [sumCounts]
      omega
    · by_cases hr : (rest.any fun q => q.1 == k) = true
      · have hany : ((p :: rest).any fun q => q.1 == k) = true := by simp [hr]
        rw [if_pos hany, List.map_cons, if_neg hp]
        have ihr := ih (List.nodup_cons.mp h).2
        unfold counterAdd at ihr
        rw [if_pos hr] at ihr
        simp only [sumCounts, List.map_cons, List.sum_cons] at ihr ⊢
        omega
      · have hany : ¬((p :: rest).any fun q => q.1 == k) = true := by
          simp only [List.any_cons, Bool.or_eq_true]
          push_neg
          exact ⟨hp, hr⟩
        rw [if_neg hany]
        simp [sumCounts]
        omega

theorem sumCounts_counterUpdate (c : Counter) (d : List (String × Nat))
    (h : KeysNodup c) : sumCounts (counterUpdate c d) = sumCounts c + sumCounts d := by
  induction d generalizing c with
  | nil => simp [counterUpdate, sumCounts]
  | cons p rest ih =>
    show sumCounts (counterUpdate (counterAdd c p.1 p.2) rest) = _
    rw [ih _ (keysNodup_counterAdd _ _ _ h), sumCounts_counterAdd _ _ _ h]
    simp [sumCounts]
    omega

/-! ### Lemmas: first-occurrence dedup and `value_counts` -/

theorem mem_firstDedupAux (l : List String) (seen : List String) (x : String) :
    x ∈ firstDedupAux seen l ↔ x ∈ l ∧ x ∉ seen := by
  induction l generalizing seen with
  | nil => simp [firstDedupAux]
  | cons v rest ih =>
    unfold firstDedupAux
    by_cases hv : seen.contains v = true
    · rw [if_pos hv, ih]
      have hv' : v ∈ seen := List.elem_iff.mp hv
      constructor
      · rintro ⟨h1, h2⟩
        exact ⟨List.mem_cons_of_mem _ h1, h2⟩
      · rintro ⟨h1, h2⟩
        rcases List.mem_cons.mp h1 with h | h
        · exact absurd (h ▸ hv') h2
        · exact ⟨h, h2⟩
    · rw [if_neg hv]
      constructor
      · intro hx
        rcases List.mem_cons.mp hx with h | h
        · subst h
          exact ⟨List.mem_cons_self _ _, fun hc => hv (List.elem_iff.mpr hc)⟩
        · rcases (ih _).mp h with ⟨h1, h2⟩
          exact ⟨List.mem_cons_of_mem _ h1, fun hc => h2 (List.mem_cons_of_mem _ hc)⟩
      · rintro ⟨h1, h2⟩
        by_cases hxv : x = v
        · subst hxv
          exact List.mem_cons_self _ _
        · rcases List.mem_cons.mp h1 with h | h
          · exact absurd h hxv
          · refine List.mem_cons_of_mem _ ((ih _).mpr ⟨h, ?_⟩)
            intro hc
            rcases List.mem_cons.mp hc with h3 | h3
            · exact hxv h3
            · exact h2 h3

theorem nodup_firstDedupAux (l : List String) (seen : List String) :
    (firstDedupAux seen l).Nodup := by
  induction l generalizing seen with
  | nil => simp [firstDedupAux]
  | cons v rest ih =>
    unfold firstDedupAux
    by_cases hv : seen.contains v = true
    · rw [if_pos hv]
      exact ih _
    · rw [if_neg hv]
      rw [List.nodup_cons]
      refine ⟨?_, ih _⟩
      intro hc
      exact ((mem_firstDedupAux _ _ _).mp hc).2 (List.mem_cons_self _ _)

theorem mem_firstDedup (l : List String) (x : String) : x ∈ firstDedup l ↔ x ∈ l := by
  unfold firstDedup
  rw [mem_firstDedupAux]
  simp

theorem nodup_firstDedup (l : List String) : (firstDedup l).Nodup :=
  nodup_firstDedupAux _ _

theorem filter_seen_cons (rest : List String) (v : String) (seen : List String)
    (hv : ¬seen.contains v = true) :
    (rest.filter (fun x => !seen.contains x)).length
      = rest.count v + (rest.filter (fun x => !(v :: seen).contains x)).length := by
  induction rest with
  | nil => simp
  | cons y rest ih =>
    by_cases hyv : y = v
    · subst hyv
      have hvm : y ∉ seen := fun hc => hv (List.elem_iff.mpr hc)
      simp [List.filter_cons, List.count_cons, List.contains_cons, hvm] at ih ⊢
      omega
    · have hvy : ¬v = y := fun h => hyv h.symm
      by_cases hys : seen.contains y = true
      · have hysm : y ∈ seen := List.elem_iff.mp hys
        simp [List.filter_cons, List.count_cons, List.contains_cons, hysm, hyv, hvy]
          at ih ⊢
        omega
      · have hysm : y ∉ seen := fun hc => hys (List.elem_iff.mpr hc)
        simp [List.filter_cons, List.count_cons, List.contains_cons, hysm, hyv, hvy]
          at ih ⊢
        omega

theorem sum_counts_firstDedupAux (l : List String) (seen : List String) :
    ((firstDedupAux seen l).map (fun v => l.count v)).sum
      = (l.filter (fun x => !seen.contains x)).length := by
  induction l generalizing seen with
  | nil => simp [firstDedupAux]
  | cons v rest ih =>
    unfold firstDedupAux
    by_cases hv : seen.contains v = true
    · rw [if_pos hv]
      have hcong : ∀ x ∈ firstDedupAux seen rest,
          (fun y => (v :: rest).count y) x = (fun y => rest.count y) x := by
        intro x hx
        have hxs : x ∉ seen := ((mem_firstDedupAux _ _ _).mp hx).2
        have hxv : (v == x) = false := by
          have hxv' : ¬x = v := fun h => hxs (h ▸ List.elem_iff.mp hv)
          exact beq_eq_false_iff_ne.mpr (fun h => hxv' h.symm)
        simp [List.count_cons, hxv]
      rw [List.map_congr_left hcong, ih]
      have hdrop : (fun x => !seen.contains x) v = false := by simpa using hv
      simp only [List.filter_cons, hdrop, if_false, Bool.false_eq_true]
    · rw [if_neg hv]
      simp only [List.map_cons, List.sum_cons]
      have hcong : ∀ x ∈ firstDedupAux (v :: seen) rest,
          (fun y => (v :: rest).count y) x = (fun y => rest.count y) x := by
        intro x hx
        have hxs : x ∉ v :: seen := ((mem_firstDedupAux _ _ _).mp hx).2
        have hxv : (v == x) = false := by
          have hxv' : ¬x = v := fun h => hxs (h ▸ List.mem_cons_self _ _)
          exact beq_eq_false_iff_ne.mpr (fun h => hxv' h.symm)
        simp [List.count_cons, hxv]
      rw [List.map_congr_left hcong, ih]
      have hkeep : (fun x => !seen.contains x) v = true := by simpa using hv
      simp only [List.filter_cons, hkeep, if_true, List.length_cons]
      have hsplit := filter_seen_cons rest v seen hv
      simp [List.count_cons, List.contains_cons] at hsplit ⊢
      omega

theorem sum_counts_firstDedup (l : List String) :
    ((firstDedup l).map (fun v => l.count v)).sum = l.length := by
  unfold firstDedup
  rw [sum_counts_firstDedupAux]
  simp

/-! ### Lemmas: sorting and `value_counts` -/

theorem sortDesc_perm (c : List (String × Nat)) : List.Perm (sortDesc c) c :=
  List.perm_insertionSort cntGe c

theorem sortDesc_sorted (c : List (String × Nat)) : List.Sorted cntGe (sortDesc c) :=
  List.sorted_insertionSort cntGe c

theorem filter_orderedInsert (k : Nat) (a : String × Nat) (l : List (String × Nat)) :
    (List.orderedInsert cntGe a l).filter (fun p => p.2 == k) =
      if a.2 = k then a :: l.filter (fun p => p.2 == k)
      else l.filter (fun p => p.2 == k) := by
  induction l with
  | nil => by_cases h : a.2 = k <;> simp [h, List.orderedInsert]
  | cons b rest ih =>
    simp only [List.orderedInsert]
    by_cases hab : cntGe a b
    · rw [if_pos hab]
      by_cases hak : a.2 = k <;> simp [hak, List.filter_cons]
    · rw [if_neg hab]
      have hlt : a.2 < b.2 := by
        have := hab
        unfold cntGe at this
        omega
      by_cases hak : a.2 = k
      · have hbk : (b.2 == k) = false := by
          have : ¬b.2 = k := by omega
          simpa using this
        simp [List.filter_cons, hbk, ih, hak]
      · simp [List.filter_cons, ih, hak]

theorem filter_sortDesc (k : Nat) (c : List (String × Nat)) :
    (sortDesc c).filter (fun p => p.2 == k) = c.filter (fun p => p.2 == k) := by
  induction c with
  | nil => rfl
  | cons a rest ih =>
    show (List.orderedInsert cntGe a (sortDesc rest)).filter _ = _
    rw [filter_orderedInsert]
    by_cases hak : a.2 = k <;> simp [hak, ih, List.filter_cons]

theorem keysNodup_value_counts (s : List (Option String)) : KeysNodup (value_counts s) := by
  unfold value_counts KeysNodup
  have hperm := (sortDesc_perm ((firstDedup (s.filterMap id)).map
    (fun v => (v, (s.filterMap id).count v)))).map (fun p : String × Nat => p.1)
  rw [hperm.nodup_iff, List.map_map]
  have : ((fun p : String × Nat => p.1) ∘ fun v => (v, (s.filterMap id).count v)) = id := by
    funext v
    rfl
  rw [this, List.map_id]
  exact nodup_firstDedup _

theorem mem_value_counts (s : List (Option String)) (v : String) (n : Nat) :
    (v, n) ∈ value_counts s ↔ v ∈ s.filterMap id ∧ n = (s.filterMap id).count v := by
  unfold value_counts
  rw [(sortDesc_perm _).mem_iff]
  constructor
  · intro h
    rcases List.mem_map.mp h with ⟨w, hw, hwe⟩
    have h1 : w = v := congrArg Prod.fst hwe
    have h2 : (s.filterMap id).count w = n := congrArg Prod.snd hwe
    subst h1
    exact ⟨(mem_firstDedup _ _).mp hw, h2.symm⟩
  · rintro ⟨h1, h2⟩
    exact List.mem_map.mpr ⟨v, (mem_firstDedup _ _).mpr h1, by rw [← h2]⟩

theorem pos_of_mem_value_counts (s : List (Option String)) (v : String) (n : Nat)
    (h : (v, n) ∈ value_counts s) : 0 < n := by
  rcases (mem_value_counts s v n).mp h with ⟨h1, h2⟩
  rw [h2]
  exact List.count_pos_iff.mpr h1

theorem cLookup_value_counts (s : List (Option String)) (v : String) :
    cLookup (value_counts s) v = posOpt ((s.filterMap id).count v) := by
  by_cases h : (s.filterMap id).count v = 0
  · rw [h]
    have hnone : cLookup (value_counts s) v = none := by
      apply cLookup_eq_none
      intro p hp hpv
      have := (mem_value_counts s p.1 p.2).mp hp
      rw [hpv] at this
      have hpos : 0 < (s.filterMap id).count v := List.count_pos_iff.mpr this.1
      omega
    rw [hnone]
    simp [posOpt]
  · have hpos : 0 < (s.filterMap id).count v := Nat.pos_of_ne_zero h
    have hmem : v ∈ s.filterMap id := List.count_pos_iff.mp hpos
    rw [cLookup_of_mem _ _ _ (keysNodup_value_counts s)
      ((mem_value_counts s v _).mpr ⟨hmem, rfl⟩)]
    simp [posOpt, h]

theorem sumCounts_value_counts (s : List (Option String)) :
    sumCounts (value_counts s) = (s.filterMap id).length := by
  unfold sumCounts value_counts
  rw [((sortDesc_perm _).map (fun p : String × Nat => p.2)).sum_eq, List.map_map]
  have : ((fun p : String × Nat => p.2) ∘ fun v => (v, (s.filterMap id).count v)) =
      fun v => (s.filterMap id).count v := by
    funext v
    rfl
  rw [this]
  exact sum_counts_firstDedup _

/-! ### Lemmas: the `value_counters` dict and the chunk step -/

theorem vcLookup_cons (k : String) (c : Counter) (rest : List (String × Counter))
    (col : String) :
    vcLookup ((k, c) :: rest) col = if k = col then c else vcLookup rest col := by
  by_cases h : k = col
  · rw [if_pos h]
    unfold vcLookup
    rw [@List.find?_cons_of_pos _ (fun r => r.1 == col) (k, c) rest (by simpa using h)]
    rfl
  · rw [if_neg h]
    unfold vcLookup
    rw [@List.find?_cons_of_neg _ (fun r => r.1 == col) (k, c) rest (by simpa using h)]

theorem keys_vcUpdate (vc : List (String × Counter)) (col : String)
    (d : List (String × Nat)) :
    (vcUpdate vc col d).map (fun p => p.1) = vc.map (fun p => p.1) := by
  unfold vcUpdate
  rw [List.map_map]
  apply List.map_congr_left
  intro p _
  by_cases h : p.1 = col <;> simp [h]

theorem vcLookup_vcUpdate_ne (vc : List (String × Counter)) (col col' : String)
    (d : List (String × Nat)) (h : ¬col' = col) :
    vcLookup (vcUpdate vc col' d) col = vcLookup vc col := by
  induction vc with
  | nil => rfl
  | cons q rest ih =>
    obtain ⟨k, c⟩ := q
    unfold vcUpdate
    rw [List.map_cons]
    by_cases hk : k = col'
    · have hk2 : (((k, c) : String × Counter).1 == col') = true := by simpa using hk
      rw [if_pos hk2]
      rw [vcLookup_cons, vcLookup_cons]
      have hkc : ¬k = col := fun hh => h (hk ▸ hh)
      rw [if_neg hkc, if_neg hkc]
      exact ih
    · have hk2 : ¬(((k, c) : String × Counter).1 == col') = true := by simpa using hk
      rw [if_neg hk2]
      rw [vcLookup_cons, vcLookup_cons]
      by_cases hkc : k = col
      · rw [if_pos hkc, if_pos hkc]
      · rw [if_neg hkc, if_neg hkc]
        exact ih

theorem vcLookup_vcUpdate_self (vc : List (String × Counter)) (col : String)
    (d : List (String × Nat)) (h : col ∈ vc.map (fun p => p.1)) :
    vcLookup (vcUpdate vc col d) col = counterUpdate (vcLookup vc col) d := by
  induction vc with
  | nil => simp at h
  | cons q rest ih =>
    obtain ⟨k, c⟩ := q
    unfold vcUpdate
    rw [List.map_cons]
    by_cases hk : k = col
    · have hk2 : (((k, c) : String × Counter).1 == col) = true := by simpa using hk
      rw [if_pos hk2]
      rw [vcLookup_cons, vcLookup_cons, if_pos hk, if_pos hk]
    · have hk2 : ¬(((k, c) : String × Counter).1 == col) = true := by simpa using hk
      rw [if_neg hk2]
      rw [vcLookup_cons, vcLookup_cons, if_neg hk, if_neg hk]
      have hmem : col ∈ rest.map (fun p => p.1) := by
        simp only [List.map_cons] at h
        rcases List.mem_cons.mp h with h1 | h1
        · exact absurd h1.symm hk
        · exact h1
      exact ih hmem

theorem vcLookup_preInit (H : List String) (col : String) :
    vcLookup (H.map (fun c => (c, ([] : Counter)))) col = [] := by
  induction H with
  | nil => rfl
  | cons c rest ih =>
    rw [List.map_cons, vcLookup_cons]
    by_cases h : c = col
    · rw [if_pos h]
    · rw [if_neg h]
      exact ih

theorem vcLookup_fold_ne (cols : List String) (cond : String → Bool)
    (g : String → List (String × Nat)) (vc : List (String × Counter)) (col : String)
    (h : col ∉ cols) :
    vcLookup (cols.foldl (fun acc c => if cond c then vcUpdate acc c (g c) else acc) vc) col
      = vcLookup vc col := by
  induction cols generalizing vc with
  | nil => rfl
  | cons c rest ih =>
    rw [List.foldl_cons]
    have hc : ¬c = col := fun hh => h (hh ▸ List.mem_cons_self _ _)
    have hstep : vcLookup (if cond c then vcUpdate vc c (g c) else vc) col
        = vcLookup vc col := by
      by_cases hcc : cond c = true
      · rw [if_pos hcc, vcLookup_vcUpdate_ne _ _ _ _ hc]
      · rw [if_neg hcc]
    rw [ih _ (fun hh => h (List.mem_cons_of_mem _ hh)), hstep]

theorem keys_fold_updates (cols : List String) (cond : String → Bool)
    (g : String → List (String × Nat)) (vc : List (String × Counter)) :
    ((cols.foldl (fun acc c => if cond c then vcUpdate acc c (g c) else acc) vc).map
      (fun p => p.1)) = vc.map (fun p => p.1) := by
  induction cols generalizing vc with
  | nil => rfl
  | cons c rest ih =>
    rw [List.foldl_cons]
    rw [ih]
    by_cases hcc : cond c = true
    · rw [if_pos hcc, keys_vcUpdate]
    · rw [if_neg hcc]

theorem vcLookup_fold_mem (cols : List String) (cond : String → Bool)
    (g : String → List (String × Nat)) (vc : List (String × Counter)) (col : String)
    (hnd : cols.Nodup) (hc : col ∈ cols) (hcond : cond col = true)
    (hkey : col ∈ vc.map (fun p => p.1)) :
    vcLookup (cols.foldl (fun acc c => if cond c then vcUpdate acc c (g c) else acc) vc) col
      = counterUpdate (vcLookup vc col) (g col) := by
  induction cols generalizing vc with
  | nil => simp at hc
  | cons c rest ih =>
    rw [List.foldl_cons]
    by_cases hcc : c = col
    · subst hcc
      have hnr : c ∉ rest := (List.nodup_cons.mp hnd).1
      rw [if_pos hcond, vcLookup_fold_ne _ _ _ _ _ hnr,
        vcLookup_vcUpdate_self _ _ _ hkey]
    · have hcr : col ∈ rest := by
        rcases List.mem_cons.mp hc with h1 | h1
        · exact absurd h1.symm hcc
        · exact h1
      have hstep : vcLookup (if cond c then vcUpdate vc c (g c) else vc) col
          = vcLookup vc col := by
        by_cases hcb : cond c = true
        · rw [if_pos hcb, vcLookup_vcUpdate_ne _ _ _ _ hcc]
        · rw [if_neg hcb]
      have hkeys : col ∈ (if cond c then vcUpdate vc c (g c) else vc).map (fun p => p.1) := by
        by_cases hcb : cond c = true
        · rw [if_pos hcb, keys_vcUpdate]
          exact hkey
        · rw [if_neg hcb]
          exact hkey
      rw [ih _ (List.nodup_cons.mp hnd).2 hcr hkeys, hstep]

theorem goodState_preInit (H : List String) : GoodState H (preInit H) := by
  refine ⟨rfl, ?_⟩
  show (H.map (fun c => (c, ([] : Counter)))).map (fun p => p.1) = H
  rw [List.map_map]
  have : ((fun p : String × Counter => p.1) ∘ fun c => (c, ([] : Counter))) = id := by
    funext c
    rfl
  rw [this, List.map_id]

theorem stepChunk_vc_of_nonempty (st : LoopState) (ch : Chunk)
    (h : ¬st.header.isEmpty = true) :
    (stepChunk st ch).value_counters =
      st.header.foldl (fun vc col => if ch.cols.contains col
        then vcUpdate vc col (value_counts (colSeries ch col)) else vc)
        st.value_counters := by
  unfold stepChunk
  simp [h]

theorem stepChunk_header_of_nonempty (st : LoopState) (ch : Chunk)
    (h : ¬st.header.isEmpty = true) :
    (stepChunk st ch).header = st.header := by
  unfold stepChunk
  simp [h]

theorem stepChunk_vc_of_empty (st : LoopState) (ch : Chunk)
    (h : st.header.isEmpty = true) :
    (stepChunk st ch).value_counters =
      ch.cols.foldl (fun vc col => if ch.cols.contains col
        then vcUpdate vc col (value_counts (colSeries ch col)) else vc)
        (ch.cols.map (fun c => (c, ([] : Counter)))) := by
  unfold stepChunk
  simp [h]

theorem stepChunk_header_of_empty (st : LoopState) (ch : Chunk)
    (h : st.header.isEmpty = true) :
    (stepChunk st ch).header = ch.cols := by
  unfold stepChunk
  simp [h]

theorem stepChunk_goodState (H : List String) (st : LoopState) (ch : Chunk)
    (hst : GoodState H st) (hch : ch.cols = H) : GoodState H (stepChunk st ch) := by
  obtain ⟨h1, h2⟩ := hst
  by_cases hH : st.header.isEmpty = true
  · refine ⟨?_, ?_⟩
    · rw [stepChunk_header_of_empty _ _ hH, hch]
    · rw [stepChunk_vc_of_empty _ _ hH, keys_fold_updates, List.map_map]
      have hcomp : ((fun p : String × Counter => p.1) ∘ fun c => (c, ([] : Counter))) =
          id := by
        funext c
        rfl
      rw [hcomp, List.map_id, hch]
  · refine ⟨?_, ?_⟩
    · rw [stepChunk_header_of_nonempty _ _ hH, h1]
    · rw [stepChunk_vc_of_nonempty _ _ hH, keys_fold_updates, h2]

theorem stepChunk_lookup (H : List String) (st : LoopState) (ch : Chunk) (col : String)
    (hst : GoodState H st) (hch : ch.cols = H) (hnd : H.Nodup) (hcol : col ∈ H) :
    vcLookup (stepChunk st ch).value_counters col
      = counterUpdate (vcLookup st.value_counters col)
          (value_counts (colSeries ch col)) := by
  have hne : ¬st.header.isEmpty = true := by
    rw [hst.1]
    intro hh
    rw [List.isEmpty_iff.mp hh] at hcol
    simp at hcol
  rw [stepChunk_vc_of_nonempty _ _ hne, hst.1]
  exact vcLookup_fold_mem H _ _ st.value_counters col hnd hcol
    (by rw [hch]; exact List.elem_iff.mpr hcol) (by rw [hst.2]; exact hcol)

theorem stepChunk_initState (ch : Chunk) (h : ¬ch.cols.isEmpty = true) :
    stepChunk initState ch = stepChunk (preInit ch.cols) ch := by
  unfold stepChunk initState preInit
  simp [h]

/-! ### Lemmas: folding whole chunk lists -/

theorem foldChunks_lookup (H : List String) (col v : String) (hnd : H.Nodup)
    (hcol : col ∈ H) (chs : List Chunk) :
    ∀ (st : LoopState), (∀ ch ∈ chs, ch.cols = H) → GoodState H st →
    cLookup (vcLookup (chs.foldl stepChunk st).value_counters col) v
      = optionAdd (cLookup (vcLookup st.value_counters col) v)
          (posOpt (chunksCount chs col v)) := by
  induction chs with
  | nil =>
    intro st _ _
    rw [List.foldl_nil]
    have h0 : chunksCount [] col v = 0 := rfl
    rw [h0]
    have : posOpt 0 = none := rfl
    rw [this, optionAdd_none_right]
  | cons ch rest ih =>
    intro st hcols hst
    rw [List.foldl_cons]
    rw [ih _ (fun c hc => hcols c (List.mem_cons_of_mem _ hc))
      (stepChunk_goodState H st ch hst (hcols ch (List.mem_cons_self _ _)))]
    rw [stepChunk_lookup H st ch col hst (hcols ch (List.mem_cons_self _ _)) hnd hcol]
    rw [cLookup_counterUpdate _ _ _ (keysNodup_value_counts _)]
    rw [cLookup_value_counts]
    have hcc : chunksCount (ch :: rest) col v
        = ((colSeries ch col).filterMap id).count v + chunksCount rest col v := by
      simp [chunksCount]
    rw [hcc, posOpt_add, optionAdd_assoc]

theorem foldChunks_sum (H : List String) (col : String) (hnd : H.Nodup)
    (hcol : col ∈ H) (chs : List Chunk) :
    ∀ (st : LoopState), (∀ ch ∈ chs, ch.cols = H) → GoodState H st →
    KeysNodup (vcLookup st.value_counters col) →
    sumCounts (vcLookup (chs.foldl stepChunk st).value_counters col)
        = sumCounts (vcLookup st.value_counters col) + chunksNonMissing chs col ∧
      KeysNodup (vcLookup (chs.foldl stepChunk st).value_counters col) := by
  induction chs with
  | nil =>
    intro st _ _ hkn
    rw [List.foldl_nil]
    exact ⟨by simp [chunksNonMissing], hkn⟩
  | cons ch rest ih =>
    intro st hcols hst hkn
    rw [List.foldl_cons]
    have hstep := stepChunk_lookup H st ch col hst (hcols ch (List.mem_cons_self _ _))
      hnd hcol
    have hkn2 : KeysNodup (vcLookup (stepChunk st ch).value_counters col) := by
      rw [hstep]
      exact keysNodup_counterUpdate _ _ hkn
    obtain ⟨hsum, hkn3⟩ := ih _ (fun c hc => hcols c (List.mem_cons_of_mem _ hc))
      (stepChunk_goodState H st ch hst (hcols ch (List.mem_cons_self _ _))) hkn2
    refine ⟨?_, hkn3⟩
    rw [hsum, hstep, sumCounts_counterUpdate _ _ hkn, sumCounts_value_counts]
    have hcc : chunksNonMissing (ch :: rest) col
        = ((colSeries ch col).filterMap id).length + chunksNonMissing rest col := by
      simp [chunksNonMissing]
    rw [hcc]
    omega

/-! ### Lemmas: the cancellation loop -/

theorem runLoop_false (chs : List Chunk) :
    ∀ (i : Nat) (st : LoopState),
    runLoop (fun _ => false) chs i st = (chs.foldl stepChunk st, i + chs.length) := by
  induction chs with
  | nil =>
    intro i st
    simp [runLoop]
  | cons ch rest ih =>
    intro i st
    show (if (false : Bool) then _ else runLoop _ rest (i + 1) (stepChunk st ch)) = _
    rw [if_neg (by simp)]
    rw [ih]
    rw [List.foldl_cons]
    refine congrArg _ ?_
    simp [List.length_cons]
    omega

theorem runLoop_stops (stop : Nat → Bool) (d : Nat) :
    ∀ (chs : List Chunk) (i : Nat) (st : LoopState),
    (∀ j, i ≤ j → j < i + d → stop j = false) → stop (i + d) = true →
    d < chs.length →
    runLoop stop chs i st = ((chs.take d).foldl stepChunk st, i + d + 1) := by
  induction d with
  | zero =>
    intro chs i st _ hset hlen
    cases chs with
    | nil => simp at hlen
    | cons ch rest =>
      show (if stop i then ((st, i + 1) : LoopState × Nat) else _) = _
      rw [if_pos (by simpa using hset)]
      rfl
  | succ d ih =>
    intro chs i st hbefore hset hlen
    cases chs with
    | nil => simp at hlen
    | cons ch rest =>
      show (if stop i then ((st, i + 1) : LoopState × Nat)
        else runLoop stop rest (i + 1) (stepChunk st ch)) = _
      rw [if_neg (by rw [hbefore i (Nat.le_refl i) (by omega)]; simp)]
      rw [ih rest (i + 1) (stepChunk st ch)
        (fun j hj1 hj2 => hbefore j (by omega) (by omega))
        (by have : i + 1 + d = i + (d + 1) := by omega
            rw [this]
            exact hset)
        (by simpa using hlen)]
      rw [List.take_succ_cons, List.foldl_cons]
      refine congrArg _ ?_
      omega

theorem runLoop_prefix (stop : Nat → Bool) (chs : List Chunk) :
    ∀ (i : Nat) (st : LoopState),
    ∃ j, j ≤ chs.length ∧
      (runLoop stop chs i st).1 = ((chs.take j).foldl stepChunk st) := by
  induction chs with
  | nil =>
    intro i st
    exact ⟨0, Nat.le_refl 0, rfl⟩
  | cons ch rest ih =>
    intro i st
    show ∃ j, j ≤ rest.length + 1 ∧
      (if stop i then ((st, i + 1) : LoopState × Nat)
        else runLoop stop rest (i + 1) (stepChunk st ch)).1 = _
    by_cases hs : stop i = true
    · refine ⟨0, Nat.zero_le _, ?_⟩
      rw [if_pos hs]
      rfl
    · rcases ih (i + 1) (stepChunk st ch) with ⟨j, hj, he⟩
      refine ⟨j + 1, by omega, ?_⟩
      rw [if_neg hs, List.take_succ_cons, List.foldl_cons]
      exact he

/-! ### Lemmas: splitting a file into chunks -/

theorem chunksOfPos_flatten (m : Nat) (rows : List Row) :
    (chunksOfPos m rows).flatten = rows := by
  induction rows using chunksOfPos.induct m with
  | case1 =>
    rw [chunksOfPos]
    rfl
  | case2 r rest ih =>
    rw [chunksOfPos, List.flatten_cons, ih, List.take_append_drop]

theorem chunksOfPos_take_flatten (m : Nat) (k : Nat) :
    ∀ (rows : List Row),
    ((chunksOfPos m rows).take k).flatten = rows.take ((m + 1) * k) := by
  induction k with
  | zero =>
    intro rows
    simp
  | succ k ih =>
    intro rows
    cases rows with
    | nil => simp [chunksOfPos]
    | cons r rest =>
      rw [chunksOfPos, List.take_succ_cons, List.flatten_cons, ih]
      have hmul : (m + 1) * (k + 1) = (m + 1) + (m + 1) * k := by ring
      rw [hmul, ← List.take_add]

theorem fileChunks_cols (H : List String) (m : Nat) (rows : List Row) :
    ∀ ch ∈ fileChunks H m rows, ch.cols = H := by
  intro ch hch
  rcases List.mem_map.mp hch with ⟨rs, _, he⟩
  rw [← he]

theorem colSeries_mk (H : List String) (rs : List Row) (col : String) :
    colSeries { cols := H, rows := rs } col = rs.map (cellOf H col) := rfl

theorem directCount_append (H : List String) (col : String) (r1 r2 : List Row)
    (v : String) :
    directCount H col (r1 ++ r2) v = directCount H col r1 v + directCount H col r2 v := by
  simp [directCount, List.filterMap_append, List.count_append]

theorem nonMissing_append (H : List String) (col : String) (r1 r2 : List Row) :
    nonMissing H col (r1 ++ r2) = nonMissing H col r1 + nonMissing H col r2 := by
  simp [nonMissing, List.filterMap_append]

theorem chunksCount_map_mk (H : List String) (col v : String) (gs : List (List Row)) :
    chunksCount (gs.map (fun rs => { cols := H, rows := rs })) col v
      = directCount H col gs.flatten v := by
  induction gs with
  | nil => simp [chunksCount, directCount]
  | cons g rest ih =>
    rw [List.map_cons, List.flatten_cons]
    rw [directCount_append]
    have hc : chunksCount (({ cols := H, rows := g } : Chunk) ::
        rest.map (fun rs => { cols := H, rows := rs })) col v
        = ((colSeries { cols := H, rows := g } col).filterMap id).count v
          + chunksCount (rest.map (fun rs => { cols := H, rows := rs })) col v := by
      simp [chunksCount]
    rw [hc, ih, colSeries_mk]
    rfl

theorem chunksNonMissing_map_mk (H : List String) (col : String) (gs : List (List Row)) :
    chunksNonMissing (gs.map (fun rs => { cols := H, rows := rs })) col
      = nonMissing H col gs.flatten := by
  induction gs with
  | nil => simp [chunksNonMissing, nonMissing]
  | cons g rest ih =>
    rw [List.map_cons, List.flatten_cons]
    rw [nonMissing_append]
    have hc : chunksNonMissing (({ cols := H, rows := g } : Chunk) ::
        rest.map (fun rs => { cols := H, rows := rs })) col
        = ((colSeries { cols := H, rows := g } col).filterMap id).length
          + chunksNonMissing (rest.map (fun rs => { cols := H, rows := rs })) col := by
      simp [chunksNonMissing]
    rw [hc, ih, colSeries_mk]
    rfl

theorem chunksCount_fileChunks (H : List String) (m : Nat) (rows : List Row)
    (col v : String) :
    chunksCount (fileChunks H m rows) col v = directCount H col rows v := by
  unfold fileChunks
  rw [chunksCount_map_mk, chunksOfPos_flatten]

theorem chunksNonMissing_fileChunks_take (H : List String) (m : Nat) (rows : List Row)
    (col : String) (k : Nat) :
    chunksNonMissing ((fileChunks H m rows).take k) col
      = nonMissing H col (rows.take ((m + 1) * k)) := by
  unfold fileChunks
  rw [← List.map_take, chunksNonMissing_map_mk, chunksOfPos_take_flatten]

/-! ### Lemmas: whole runs over a file -/

theorem optionAdd_none_left (x : Option Nat) : optionAdd none x = x := by
  cases x <;> rfl

theorem chunksOfPos_nil (m : Nat) : chunksOfPos m [] = [] := by
  rw [chunksOfPos]

theorem preInit_vc (H : List String) :
    (preInit H).value_counters = H.map (fun c => (c, ([] : Counter))) := rfl

theorem foldInit_lookup (H : List String) (col v : String) (hnd : H.Nodup)
    (hcol : col ∈ H) (chs : List Chunk) (hcols : ∀ ch ∈ chs, ch.cols = H) :
    cLookup (vcLookup (chs.foldl stepChunk initState).value_counters col) v
      = posOpt (chunksCount chs col v) := by
  cases chs with
  | nil => simp [initState, vcLookup, cLookup, chunksCount, posOpt]
  | cons ch rest =>
    have hch : ch.cols = H := hcols ch (List.mem_cons_self _ _)
    have hne : ¬ch.cols.isEmpty = true := by
      rw [hch]
      intro hh
      rw [List.isEmpty_iff.mp hh] at hcol
      simp at hcol
    rw [List.foldl_cons, stepChunk_initState ch hne, ← List.foldl_cons, hch]
    rw [foldChunks_lookup H col v hnd hcol (ch :: rest) (preInit H) hcols
      (goodState_preInit H)]
    rw [preInit_vc, vcLookup_preInit]
    have hnil : cLookup [] v = none := rfl
    rw [hnil, optionAdd_none_left]

theorem foldInit_sum (H : List String) (col : String) (hnd : H.Nodup)
    (hcol : col ∈ H) (chs : List Chunk) (hcols : ∀ ch ∈ chs, ch.cols = H) :
    sumCounts (vcLookup (chs.foldl stepChunk initState).value_counters col)
      = chunksNonMissing chs col := by
  cases chs with
  | nil => simp [initState, vcLookup, sumCounts, chunksNonMissing]
  | cons ch rest =>
    have hch : ch.cols = H := hcols ch (List.mem_cons_self _ _)
    have hne : ¬ch.cols.isEmpty = true := by
      rw [hch]
      intro hh
      rw [List.isEmpty_iff.mp hh] at hcol
      simp at hcol
    rw [List.foldl_cons, stepChunk_initState ch hne, ← List.foldl_cons, hch]
    have hbase : KeysNodup (vcLookup (preInit H).value_counters col) := by
      rw [preInit_vc, vcLookup_preInit]
      simp [KeysNodup]
    obtain ⟨hsum, _⟩ := foldChunks_sum H col hnd hcol (ch :: rest) (preInit H) hcols
      (goodState_preInit H) hbase
    rw [hsum, preInit_vc, vcLookup_preInit]
    simp [sumCounts]

theorem finalState_lookup (H : List String) (m : Nat) (rows : List Row)
    (col v : String) (hnd : H.Nodup) (hcol : col ∈ H) :
    cLookup (vcLookup (finalState H m rows).value_counters col) v
      = posOpt (directCount H col rows v) := by
  unfold finalState
  rw [runLoop_false]
  show cLookup (vcLookup ((fileChunks H m rows).foldl stepChunk initState).value_counters
    col) v = _
  rw [foldInit_lookup H col v hnd hcol _ (fileChunks_cols H m rows),
    chunksCount_fileChunks]

theorem boundary_sum (H : List String) (m : Nat) (rows : List Row) (col : String)
    (k : Nat) (hnd : H.Nodup) (hcol : col ∈ H) :
    sumCounts (vcLookup (stateAfter ((fileChunks H m rows).take k)).value_counters col)
      = nonMissing H col (rows.take ((m + 1) * k)) := by
  unfold stateAfter
  rw [foldInit_sum H col hnd hcol _
    (fun ch hch => fileChunks_cols H m rows ch (List.mem_of_mem_take hch)),
    chunksNonMissing_fileChunks_take]

/-! ### Lemmas: positivity and monotonicity of stored counts -/

theorem pos_counterAdd (c : Counter) (k : String) (n : Nat)
    (hc : ∀ q ∈ c, 0 < q.2) (hn : 0 < n) : ∀ q ∈ counterAdd c k n, 0 < q.2 := by
  intro q hq
  unfold counterAdd at hq
  by_cases hany : c.any (fun p => p.1 == k) = true
  · rw [if_pos hany] at hq
    rcases List.mem_map.mp hq with ⟨p, hp, he⟩
    by_cases hpk : (p.1 == k) = true
    · rw [if_pos hpk] at he
      rw [← he]
      have := hc p hp
      simp
      omega
    · rw [if_neg hpk] at he
      rw [← he]
      exact hc p hp
  · rw [if_neg hany] at hq
    rcases List.mem_append.mp hq with h | h
    · exact hc q h
    · have : q = (k, n) := by simpa using h
      rw [this]
      exact hn

theorem pos_counterUpdate (c : Counter) (d : List (String × Nat))
    (hc : ∀ q ∈ c, 0 < q.2) (hd : ∀ q ∈ d, 0 < q.2) :
    ∀ q ∈ counterUpdate c d, 0 < q.2 := by
  induction d generalizing c with
  | nil => exact hc
  | cons p rest ih =>
    exact ih _ (pos_counterAdd c p.1 p.2 hc (hd p (List.mem_cons_self _ _)))
      (fun q hq => hd q (List.mem_cons_of_mem _ hq))

theorem vcPos_vcUpdate (vc : List (String × Counter)) (col : String)
    (d : List (String × Nat)) (hvc : ∀ p ∈ vc, ∀ q ∈ p.2, 0 < q.2)
    (hd : ∀ q ∈ d, 0 < q.2) :
    ∀ p ∈ vcUpdate vc col d, ∀ q ∈ p.2, 0 < q.2 := by
  intro p hp
  rcases List.mem_map.mp hp with ⟨p0, hp0, he⟩
  by_cases h : (p0.1 == col) = true
  · rw [if_pos h] at he
    rw [← he]
    exact pos_counterUpdate _ _ (hvc p0 hp0) hd
  · rw [if_neg h] at he
    rw [← he]
    exact hvc p0 hp0

theorem vcPos_fold (ch : Chunk) (cols : List String) :
    ∀ (vc : List (String × Counter)), (∀ p ∈ vc, ∀ q ∈ p.2, 0 < q.2) →
    ∀ p ∈ cols.foldl (fun acc c => if ch.cols.contains c
      then vcUpdate acc c (value_counts (colSeries ch c)) else acc) vc,
    ∀ q ∈ p.2, 0 < q.2 := by
  induction cols with
  | nil => intro vc hvc; exact hvc
  | cons c rest ih =>
    intro vc hvc
    rw [List.foldl_cons]
    apply ih
    by_cases hcc : ch.cols.contains c = true
    · rw [if_pos hcc]
      exact vcPos_vcUpdate _ _ _ hvc
        (fun q hq => pos_of_mem_value_counts _ q.1 q.2 hq)
    · rw [if_neg hcc]
      exact hvc

theorem allPos_stepChunk (st : LoopState) (ch : Chunk) (h : AllPos st) :
    AllPos (stepChunk st ch) := by
  by_cases hH : st.header.isEmpty = true
  · intro p hp
    rw [stepChunk_vc_of_empty _ _ hH] at hp
    refine vcPos_fold ch ch.cols _ ?_ p hp
    intro p0 hp0 q hq
    rcases List.mem_map.mp hp0 with ⟨c, _, he⟩
    rw [← he] at hq
    simp at hq
  · intro p hp
    rw [stepChunk_vc_of_nonempty _ _ hH] at hp
    exact vcPos_fold ch st.header _ h p hp

theorem allPos_foldChunks (chs : List Chunk) :
    ∀ (st : LoopState), AllPos st → AllPos (chs.foldl stepChunk st) := by
  induction chs with
  | nil => intro st h; exact h
  | cons ch rest ih =>
    intro st h
    rw [List.foldl_cons]
    exact ih _ (allPos_stepChunk st ch h)

theorem allPos_initState : AllPos initState := by
  intro p hp
  simp [initState] at hp

theorem invEmpty_initState : InvEmpty initState := fun _ => rfl

theorem invEmpty_stepChunk (st : LoopState) (ch : Chunk) (_ : InvEmpty st) :
    InvEmpty (stepChunk st ch) := by
  intro hh
  by_cases hH : st.header.isEmpty = true
  · rw [stepChunk_header_of_empty _ _ hH] at hh
    rw [stepChunk_vc_of_empty _ _ hH, hh]
    rfl
  · rw [stepChunk_header_of_nonempty _ _ hH] at hh
    exact absurd (List.isEmpty_iff.mpr hh) hH

theorem invEmpty_foldChunks (chs : List Chunk) :
    ∀ (st : LoopState), InvEmpty st → InvEmpty (chs.foldl stepChunk st) := by
  induction chs with
  | nil => intro st h; exact h
  | cons ch rest ih =>
    intro st h
    rw [List.foldl_cons]
    exact ih _ (invEmpty_stepChunk st ch h)

theorem mono_counterUpdate (c : Counter) (d : List (String × Nat)) (v : String)
    (a : Nat) (hd : KeysNodup d) (h : cLookup c v = some a) :
    ∃ b, a ≤ b ∧ cLookup (counterUpdate c d) v = some b := by
  rw [cLookup_counterUpdate _ _ _ hd, h]
  cases hdl : cLookup d v with
  | none => exact ⟨a, Nat.le_refl a, rfl⟩
  | some x => exact ⟨a + x, Nat.le_add_right a x, rfl⟩

theorem vcLookup_mem_keys (vc : List (String × Counter)) (col : String)
    (h : ¬vcLookup vc col = []) : col ∈ vc.map (fun p => p.1) := by
  unfold vcLookup at h
  cases hf : vc.find? (fun p => p.1 == col) with
  | none =>
    rw [hf] at h
    simp at h
  | some q =>
    have hm := List.mem_of_find?_eq_some hf
    have hk := List.find?_some hf
    have hq : q.1 = col := by simpa using hk
    rw [← hq]
    exact List.mem_map_of_mem _ hm

theorem mono_fold (ch : Chunk) (cols : List String) :
    ∀ (vc : List (String × Counter)) (col v : String) (a : Nat),
    cLookup (vcLookup vc col) v = some a →
    ∃ b, a ≤ b ∧
      cLookup (vcLookup (cols.foldl (fun acc c => if ch.cols.contains c
        then vcUpdate acc c (value_counts (colSeries ch c)) else acc) vc) col) v
        = some b := by
  induction cols with
  | nil =>
    intro vc col v a h
    exact ⟨a, Nat.le_refl a, h⟩
  | cons c rest ih =>
    intro vc col v a h
    rw [List.foldl_cons]
    have hstep : ∃ b, a ≤ b ∧
        cLookup (vcLookup (if ch.cols.contains c
          then vcUpdate vc c (value_counts (colSeries ch c)) else vc) col) v = some b := by
      by_cases hcc : ch.cols.contains c = true
      · rw [if_pos hcc]
        by_cases hc : c = col
        · subst hc
          have hne : ¬vcLookup vc c = [] := by
            intro hnil
            rw [hnil] at h
            simp [cLookup] at h
          rw [vcLookup_vcUpdate_self _ _ _ (vcLookup_mem_keys _ _ hne)]
          exact mono_counterUpdate _ _ _ _ (keysNodup_value_counts _) h
        · rw [vcLookup_vcUpdate_ne _ _ _ _ hc]
          exact ⟨a, Nat.le_refl a, h⟩
      · rw [if_neg hcc]
        exact ⟨a, Nat.le_refl a, h⟩
    rcases hstep with ⟨b, hab, hb⟩
    rcases ih _ col v b hb with ⟨b2, hb2, hb2e⟩
    exact ⟨b2, Nat.le_trans hab hb2, hb2e⟩

theorem mono_stepChunk (st : LoopState) (ch : Chunk) (col v : String) (a : Nat)
    (hinv : InvEmpty st) (h : cLookup (vcLookup st.value_counters col) v = some a) :
    ∃ b, a ≤ b ∧ cLookup (vcLookup (stepChunk st ch).value_counters col) v = some b := by
  by_cases hH : st.header.isEmpty = true
  · rw [hinv (List.isEmpty_iff.mp hH)] at h
    simp [vcLookup, cLookup] at h
  · rw [stepChunk_vc_of_nonempty _ _ hH]
    exact mono_fold ch st.header st.value_counters col v a h

theorem mono_foldChunks (chs : List Chunk) :
    ∀ (st : LoopState) (col v : String) (a : Nat), InvEmpty st →
    cLookup (vcLookup st.value_counters col) v = some a →
    ∃ b, a ≤ b ∧
      cLookup (vcLookup (chs.foldl stepChunk st).value_counters col) v = some b := by
  induction chs with
  | nil =>
    intro st col v a _ h
    exact ⟨a, Nat.le_refl a, h⟩
  | cons ch rest ih =>
    intro st col v a hinv h
    rw [List.foldl_cons]
    rcases mono_stepChunk st ch col v a hinv h with ⟨b, hab, hb⟩
    rcases ih _ col v b (invEmpty_stepChunk st ch hinv) hb with ⟨b2, hb2, hb2e⟩
    exact ⟨b2, Nat.le_trans hab hb2, hb2e⟩

theorem stateAfter_take_add (chunks : List Chunk) (k j : Nat) :
    stateAfter (chunks.take (k + j))
      = ((chunks.drop k).take j).foldl stepChunk (stateAfter (chunks.take k)) := by
  unfold stateAfter
  rw [List.take_add, List.foldl_append]

/-! ### Claim theorems -/

/-- Claim C1: for every file with header row `H` and data rows `rows`,
processed to completion in chunks of any positive size `m + 1`, the
cumulative frequency map of every column `col` equals the exact
value→count distribution of that column over all data rows: a value is a
key exactly when it occurs among the column's non-missing cells, with its
exact total count.  Consequently ranking the map by descending count with
ties broken by first occurrence in the file yields exactly the ranking of
the analytic distribution, hence the analytically correct top-N. -/
theorem C1_final_map_exact (H : List String) (m : Nat) (rows : List Row)
    (col v : String) (hnd : H.Nodup) (hcol : col ∈ H) :
    cLookup (vcLookup (finalState H m rows).value_counters col) v
        = posOpt (directCount H col rows v) ∧
      sortDesc ((firstDedup ((rows.map (cellOf H col)).filterMap id)).map
          (fun w => (w, (cLookup (vcLookup (finalState H m rows).value_counters col)
            w).getD 0)))
        = sortDesc ((firstDedup ((rows.map (cellOf H col)).filterMap id)).map
          (fun w => (w, directCount H col rows w))) := by
  refine ⟨finalState_lookup H m rows col v hnd hcol, ?_⟩
  congr 1
  apply List.map_congr_left
  intro w _
  rw [finalState_lookup H m rows col w hnd hcol]
  unfold posOpt
  by_cases h : directCount H col rows w = 0 <;> simp [h]

/-- Witness for C1 at a concrete three-row, one-column file. -/
theorem C1_final_map_exact_witness :
    cLookup (vcLookup (finalState ["a"] 0
        [[some "x"], [some "y"], [some "x"]]).value_counters "a") "x"
      = posOpt (directCount ["a"] "a" [[some "x"], [some "y"], [some "x"]] "x") :=
  (C1_final_map_exact ["a"] 0 [[some "x"], [some "y"], [some "x"]] "a" "x"
    (by decide) (by decide)).1

/-- Claim C2: processing the same file in chunks of any two positive
sizes (in particular one single chunk vs many small chunks) produces
identical final per-column frequency maps: every lookup agrees, so the
maps are equal as value→count dictionaries. -/
theorem C2_chunk_size_independent (H : List String) (rows : List Row)
    (m1 m2 : Nat) (col v : String) (hnd : H.Nodup) (hcol : col ∈ H) :
    cLookup (vcLookup (finalState H m1 rows).value_counters col) v
      = cLookup (vcLookup (finalState H m2 rows).value_counters col) v := by
  rw [finalState_lookup H m1 rows col v hnd hcol,
    finalState_lookup H m2 rows col v hnd hcol]

/-- Witness for C2: chunk size 1 vs one single chunk of a three-row file. -/
theorem C2_chunk_size_independent_witness :
    cLookup (vcLookup (finalState ["a"] 0
        [[some "x"], [some "y"], [some "x"]]).value_counters "a") "x"
      = cLookup (vcLookup (finalState ["a"] 9
        [[some "x"], [some "y"], [some "x"]]).value_counters "a") "x" :=
  C2_chunk_size_independent ["a"] [[some "x"], [some "y"], [some "x"]] 0 9 "a" "x"
    (by decide) (by decide)

/-- Claim C3: at every chunk boundary (after any number `k` of merged
chunks) the sum of all counts in a column's frequency map equals the
number of non-missing cells of that column among the rows processed so
far, for every positive chunk size; and any run of the loop, under any
cancellation flag behaviour, stops in a state equal to such a boundary
state, so the invariant also holds at completion or cancellation. -/
theorem C3_sum_counts_invariant (H : List String) (m : Nat) (rows : List Row)
    (col : String) (k : Nat) (hnd : H.Nodup) (hcol : col ∈ H) :
    sumCounts (vcLookup (stateAfter ((fileChunks H m rows).take k)).value_counters col)
        = nonMissing H col (rows.take ((m + 1) * k)) ∧
      ∀ stop : Nat → Bool, ∃ j, j ≤ (fileChunks H m rows).length ∧
        (runLoop stop (fileChunks H m rows) 0 initState).1
          = stateAfter ((fileChunks H m rows).take j) := by
  refine ⟨boundary_sum H m rows col k hnd hcol, ?_⟩
  intro stop
  exact runLoop_prefix stop _ 0 initState

/-- Witness for C3 after one chunk of size 2 over a three-row file with
a missing cell. -/
theorem C3_sum_counts_invariant_witness :
    sumCounts (vcLookup (stateAfter ((fileChunks ["a"] 1
        [[some "x"], [none], [some "y"]]).take 1)).value_counters "a")
      = nonMissing ["a"] "a" ([[some "x"], [none], [some "y"]].take (2 * 1)) :=
  (C3_sum_counts_invariant ["a"] 1 [[some "x"], [none], [some "y"]] "a" 1
    (by decide) (by decide)).1

/-- Claim C4: if the cancellation flag (monotone once set) is first
observed set at the poll after consuming chunk `i`, then the loop
consumes no further chunk (exactly `i + 1` chunks are consumed), the
most recently read chunk `i` is not merged (the final state is the state
after the first `i` chunks only), report generation is skipped in favour
of the stopped text, and the run is not marked successful. -/
theorem C4_cancellation (chunks : List Chunk) (stop : Nat → Bool) (i : Nat)
    (f d : String) (n : Nat)
    (hmono : ∀ j k, j ≤ k → stop j = true → stop k = true)
    (hset : stop i = true) (hfirst : ∀ j, j < i → stop j = false)
    (hlen : i < chunks.length) :
    (process_csv_thread f d chunks stop n).consumed = i + 1 ∧
      (process_csv_thread f d chunks stop n).final = stateAfter (chunks.take i) ∧
      (process_csv_thread f d chunks stop n).report = stop_report ∧
      (process_csv_thread f d chunks stop n).success = false := by
  have hrun : runLoop stop chunks 0 initState
      = ((chunks.take i).foldl stepChunk initState, 0 + i + 1) :=
    runLoop_stops stop i chunks 0 initState (fun j hj1 hj2 => hfirst j (by omega))
      (by simpa using hset) hlen
  have hstop2 : stop (0 + i + 1) = true := hmono i (0 + i + 1) (by omega) hset
  unfold process_csv_thread
  rw [hrun]
  refine ⟨by simp, rfl, ?_, ?_⟩
  · show (if stop (0 + i + 1) then stop_report else _) = stop_report
    rw [if_pos hstop2]
  · show (!(stop (0 + i + 1))) = false
    rw [hstop2]
    rfl

/-- Witness for C4: flag set before the poll after the second chunk of a
two-chunk run. -/
theorem C4_cancellation_witness :
    (process_csv_thread "f.csv" "2025-07-13" [⟨["a"], [[some "x"]]⟩, ⟨["a"], [[some "y"]]⟩]
      (fun j => decide (1 ≤ j)) 10).report = stop_report :=
  (C4_cancellation [⟨["a"], [[some "x"]]⟩, ⟨["a"], [[some "y"]]⟩]
    (fun j => decide (1 ≤ j)) 1 "f.csv" "2025-07-13" 10
    (by
      intro j k hjk hj
      simp only [decide_eq_true_eq] at hj ⊢
      omega)
    (by decide)
    (by
      intro j hj
      have hj0 : j = 0 := by omega
      subst hj0
      decide)
    (by decide)).2.2.1

/-- Claim C5: the generated report is the header block followed by one
section per column in original (insertion) column order; each section
lists the `most_common top_n` pairs, which are at most `top_n` many,
ranked by descending count, drawn from the column's counter, with ties
broken by first-encountered order in the map (stability: filtering the
sorted list at any fixed count reproduces the map's own entry order);
and a column with an empty counter gets the placeholder line
`No values found.` instead of pairs. -/
theorem C5_report_structure (vc : List (String × Counter)) (n : Nat) (f d : String) :
    generate_report vc n f d
        = reportHeaderBlock f d n ++
          String.join (vc.enum.map (fun p => columnSection p.1 p.2.1 p.2.2 n)) ∧
      (∀ c : Counter, (most_common n c).length ≤ n) ∧
      (∀ c : Counter, List.Sorted cntGe (most_common n c)) ∧
      (∀ c : Counter, List.Subperm (most_common n c) c) ∧
      (∀ c : Counter, ∀ k : Nat, (sortDesc c).filter (fun p => p.2 == k)
        = c.filter (fun p => p.2 == k)) ∧
      (∀ (i : Nat) (col : String), columnSection i col [] n
        = "--- Column " ++ toString (i + 1) ++ ": \x27" ++ col ++ "\x27 ---\n"
          ++ "No values found.\n\n") := by
  refine ⟨rfl, ?_, ?_, ?_, ?_, ?_⟩
  · intro c
    unfold most_common
    rw [List.length_take]
    exact min_le_left _ _
  · intro c
    exact List.Pairwise.sublist (List.take_sublist n _) (sortDesc_sorted c)
  · intro c
    exact ((List.take_sublist n (sortDesc c)).subperm).trans (sortDesc_perm c).subperm
  · intro c k
    exact filter_sortDesc k c
  · intro i col
    rfl

/-- Claim C6 counterexample: on the empty byte sample (no newline, so
the 150-byte fallback average applies) with total file size 0 and the
default chunk size 9000, the code computes `ceil(0 / (9000 * 150)) = 0`,
not the value `max 1 (ceil ...)` = 1 that "floored at 1" demands. -/
theorem C6_estimator_counterexample :
    ¬total_chunks 0 9000 []
        = max 1 ⌈((0 : Nat) : ℚ) / estimated_chunk_byte_size 9000 []⌉ := by
  unfold total_chunks estimated_chunk_byte_size avg_row_size lines_in_sample
  norm_num

/-- Claim C6 as amended: the average row size is the exact sample length
divided by the newline count when the sample has a newline and the fixed
fallback 150 otherwise (total, never a division by zero); the estimated
total chunk count is `ceil(file_size / (chunk_size * avg_row_size))`
whenever the estimated chunk byte size is positive and 1 when it is
zero; the result is at least 1 whenever the file is nonempty, but it is
0 (not floored to 1) for an empty file with positive chunk byte size. -/
theorem C6_estimator (raw : List Nat) (total chunk : Nat) :
    (0 < lines_in_sample raw →
        avg_row_size raw = (raw.length : ℚ) / (lines_in_sample raw : ℚ)) ∧
      (lines_in_sample raw = 0 → avg_row_size raw = 150) ∧
      (0 < estimated_chunk_byte_size chunk raw →
        total_chunks total chunk raw
          = ⌈(total : ℚ) / estimated_chunk_byte_size chunk raw⌉) ∧
      (estimated_chunk_byte_size chunk raw = 0 → total_chunks total chunk raw = 1) ∧
      (0 < total → 1 ≤ total_chunks total chunk raw) := by
  refine ⟨?_, ?_, ?_, ?_, ?_⟩
  · intro h
    unfold avg_row_size
    rw [if_pos h]
  · intro h
    unfold avg_row_size
    rw [if_neg (by omega)]
  · intro h
    unfold total_chunks
    rw [if_pos h]
  · intro h
    unfold total_chunks
    rw [if_neg (by rw [h]; exact lt_irrefl 0)]
  · intro h
    by_cases he : 0 < estimated_chunk_byte_size chunk raw
    · unfold total_chunks
      rw [if_pos he]
      refine Int.ceil_pos.mpr ?_
      apply div_pos _ he
      exact_mod_cast h
    · unfold total_chunks
      rw [if_neg he]

/-- The estimated chunk byte size of a concrete sample with two newline
bytes is positive (sample length 4, two newlines, so the average row
size is 2 and the byte size is `2 * 2`). -/
theorem est_pos_sample : 0 < estimated_chunk_byte_size 2 [65, 10, 66, 10] := by
  unfold estimated_chunk_byte_size avg_row_size lines_in_sample
  norm_num

/-- Witness for the amended C6 at a concrete sample with two newlines. -/
theorem C6_estimator_witness :
    total_chunks 100 2 [65, 10, 66, 10]
      = ⌈((100 : Nat) : ℚ) / estimated_chunk_byte_size 2 [65, 10, 66, 10]⌉ :=
  (C6_estimator [65, 10, 66, 10] 100 2).2.2.1 est_pos_sample

/-- Claim C7: the validators return the parsed value exactly when it
meets the bound (top-N parses as an integer greater than 0, chunk size
parses as an integer at least 500) and otherwise fall back to the
defaults 10 and 9000 with a user-visible warning, never aborting; in
particular `top_n = "abc"` yields the default 10 with a warning. -/
theorem C7_validation :
    (∀ s : String, ∀ n : Int, pyParseInt s = some n → 0 < n →
        validate_top_n s = (n, false)) ∧
      (∀ s : String, (∀ n : Int, pyParseInt s = some n → ¬0 < n) →
        validate_top_n s = ((DEFAULT_TOP_N : Int), true)) ∧
      (∀ s : String, ∀ n : Int, pyParseInt s = some n → (MIN_CHUNK_SIZE : Int) ≤ n →
        validate_chunk_size s = (n, false)) ∧
      (∀ s : String, (∀ n : Int, pyParseInt s = some n →
          ¬(MIN_CHUNK_SIZE : Int) ≤ n) →
        validate_chunk_size s = ((CHUNK_SIZE_DEFAULT : Int), true)) ∧
      validate_top_n "abc" = ((DEFAULT_TOP_N : Int), true) := by
  refine ⟨?_, ?_, ?_, ?_, by decide⟩
  · intro s n hp hn
    unfold validate_top_n
    rw [hp]
    simp [hn]
  · intro s hall
    unfold validate_top_n
    cases hp : pyParseInt s with
    | none => rfl
    | some n =>
      simp [hall n hp]
  · intro s n hp hn
    unfold validate_chunk_size
    rw [hp]
    simp [hn]
  · intro s hall
    unfold validate_chunk_size
    cases hp : pyParseInt s with
    | none => rfl
    | some n =>
      simp [hall n hp]

/-- Witness for C7: a valid top-N and a valid chunk size are returned
unchanged with no warning. -/
theorem C7_validation_witness :
    validate_top_n "7" = ((7 : Int), false) ∧
      validate_chunk_size "600" = ((600 : Int), false) :=
  ⟨C7_validation.1 "7" 7 (by decide) (by decide),
    C7_validation.2.2.1 "600" 600 (by decide) (by decide)⟩

/-- Claim C8 counterexample: two invocations of the report generator
with identical frequency maps and identical top-N but different
`datetime.now()` timestamps produce different report texts, so the
generator is not deterministic given the maps and N alone. -/
theorem C8_deterministic_counterexample :
    ¬generate_report [("A", [("x", 1)])] 1 "f.csv" "2025-07-13 10:00:00"
        = generate_report [("A", [("x", 1)])] 1 "f.csv" "2025-07-13 10:00:01" := by
  decide

/-- Claim C8 as amended: the report generator is deterministic given its
full inputs: identical frequency maps, top-N, source file name and
timestamp yield identical report text. -/
theorem C8_deterministic (vc vc2 : List (String × Counter)) (n n2 : Nat)
    (f f2 d d2 : String) (h1 : vc = vc2) (h2 : n = n2) (h3 : f = f2) (h4 : d = d2) :
    generate_report vc n f d = generate_report vc2 n2 f2 d2 := by
  rw [h1, h2, h3, h4]

/-- Witness for the amended C8. -/
theorem C8_deterministic_witness :
    generate_report [("A", [("x", 1)])] 1 "f.csv" "2025-07-13 10:00:00"
      = generate_report [("A", [("x", 1)])] 1 "f.csv" "2025-07-13 10:00:00" :=
  C8_deterministic [("A", [("x", 1)])] [("A", [("x", 1)])] 1 1 "f.csv" "f.csv"
    "2025-07-13 10:00:00" "2025-07-13 10:00:00" rfl rfl rfl rfl

/-- Claim C9: missing cells (pandas NaN, modelled `none`) never enter a
frequency map and contribute nothing to any count: the per-chunk
distribution is unchanged if the missing cells are removed first, every
recorded entry is the exact positive count over non-missing cells only,
a value is a key exactly when it occurs among the non-missing cells, and
the counts total exactly the number of non-missing cells. -/
theorem C9_missing_dropped (s : List (Option String)) :
    value_counts s = value_counts ((s.filterMap id).map some) ∧
      (∀ v n, (v, n) ∈ value_counts s → 0 < n ∧ n = (s.filterMap id).count v) ∧
      (∀ v, ¬cLookup (value_counts s) v = none ↔ v ∈ s.filterMap id) ∧
      sumCounts (value_counts s) = (s.filterMap id).length := by
  refine ⟨?_, ?_, ?_, sumCounts_value_counts s⟩
  · have hfm : ((s.filterMap id).map some).filterMap id = s.filterMap id := by simp
    unfold value_counts
    rw [hfm]
  · intro v n h
    rcases (mem_value_counts s v n).mp h with ⟨h1, h2⟩
    exact ⟨h2 ▸ List.count_pos_iff.mpr h1, h2⟩
  · intro v
    rw [cLookup_value_counts]
    unfold posOpt
    by_cases h : (s.filterMap id).count v = 0
    · simp [h, List.count_eq_zero.mp h]
    · simp [h, List.count_pos_iff.mp (Nat.pos_of_ne_zero h)]

/-- Witness for C9 at a concrete series with a missing cell. -/
theorem C9_missing_dropped_witness :
    0 < 2 ∧ 2 = ([some "x", none, some "x"].filterMap id).count "x" :=
  (C9_missing_dropped [some "x", none, some "x"]).2.1 "x" 2 (by decide)

/-- Claim C10: along any run (states after `k` merged chunks, `k ≤ k2`),
every entry stored in every column's frequency map has a strictly
positive count, and no stored count ever decreases: a value present with
count `a` after `k` chunks is present with some count `b ≥ a` after `k2`
chunks. -/
theorem C10_counts_positive_monotone (chunks : List Chunk) (k k2 : Nat)
    (col v : String) (a : Nat) (hk : k ≤ k2) :
    (∀ p ∈ (stateAfter (chunks.take k)).value_counters, ∀ q ∈ p.2, 0 < q.2) ∧
      (cLookup (vcLookup (stateAfter (chunks.take k)).value_counters col) v = some a →
        ∃ b, a ≤ b ∧
          cLookup (vcLookup (stateAfter (chunks.take k2)).value_counters col) v
            = some b) := by
  constructor
  · exact allPos_foldChunks _ initState allPos_initState
  · intro h
    have hinv : InvEmpty (stateAfter (chunks.take k)) :=
      invEmpty_foldChunks _ initState invEmpty_initState
    have hEq : k + (k2 - k) = k2 := by omega
    have hrw : stateAfter (chunks.take k2)
        = ((chunks.drop k).take (k2 - k)).foldl stepChunk
            (stateAfter (chunks.take k)) := by
      rw [← stateAfter_take_add, hEq]
    rw [hrw]
    exact mono_foldChunks _ _ col v a hinv h

/-- Witness for C10: the count of a value after one chunk does not
decrease after the second chunk. -/
theorem C10_counts_positive_monotone_witness :
    ∃ b, 1 ≤ b ∧
      cLookup (vcLookup (stateAfter (([⟨["a"], [[some "x"]]⟩, ⟨["a"], [[some "x"]]⟩] :
          List Chunk).take 2)).value_counters "a") "x" = some b :=
  (C10_counts_positive_monotone [⟨["a"], [[some "x"]]⟩, ⟨["a"], [[some "x"]]⟩] 1 2
    "a" "x" 1 (by decide)).2 (by decide)

end CSVTopValues
